import Mathlib

/-!
Verification development for the `bloom-filter-vs-min-cut` repository.

The repository implements three data structures in Python:

* `LRUCache` (the spec's RecencyOracle) in `data_structure.py`,
* `MinCut` (the spec's FrequencySketch) in `min_cut.py`,
* `SCBloomFilter` (the spec's SelectiveCountingFilter) in
  `selective_counting_bloom_filter.py`,

together with a shared multi-hash helper `DataStructure._get_hash_values`.

Modelling conventions used throughout this file:

* Python integers are modelled as `ℤ` (or `ℕ` for values that are
  provably non-negative, such as counters that start at 0 and are only
  incremented).
* Python float arithmetic on rational inputs (`/`, `*`, `+`, `math.pow`
  with integer exponent) is modelled exactly over `ℚ`; the transcendental
  expression `math.pow(2, math.log(2, math.e) * ...)` appearing in
  `SCBloomFilter._update_bound` is modelled over `ℝ`
  (`math.log(2, math.e)` is the natural logarithm of 2).
* Python `%` is `Int.fmod` (the result has the sign of the divisor) and
  raises `ZeroDivisionError` exactly when the divisor is 0; fallible
  operations (division by zero, hashing modulo 0) are modelled with
  `Option`, `none` standing for a raised exception.
* The external hash library `pymmh3` is modelled as an abstract
  parameter `hash : String → ℕ → ℤ` (element, seed ↦ signed hash value),
  carried as a field of each structure, mirroring determinism of
  `mmh3.hash(element, i)`.
* `OrderedDict`-based caches are modelled as duplicate-free lists in
  insertion order (least recently used first, most recent last).
* List indexing uses `List.getD` / `List.set`; out-of-range accesses
  cannot arise in the situations the theorems speak about (hashed
  indices of a positive range are within bounds).
-/

/-- The constant `ALPHA = 100` from `selective_counting_bloom_filter.py`. -/
def ALPHA : ℚ := 100

/-- Python's `sys.maxsize` on a 64-bit platform, used as the initial
minimum in `MinCut._count`. -/
def sysMaxsize : ℕ := 2 ^ 63 - 1

/-- Python's `%` operator on integers: the remainder takes the sign of
the divisor, i.e. `Int.fmod`. -/
def pymod (a b : ℤ) : ℤ := Int.fmod a b

/-- Model of `DataStructure._get_hash_values(element, range_size)`: the list
`[mmh3.hash(element, i) % range_size for i in range(k)]`.  Python raises
`ZeroDivisionError` on the first loop iteration when `range_size == 0`
and the loop body runs at least once; this is the `none` case. -/
def getHashValues (hash : String → ℕ → ℤ) (num_of_hash_functions : ℤ)
    (element : String) (range_size : ℤ) : Option (List ℤ) :=
  if 0 < num_of_hash_functions.toNat ∧ range_size = 0 then none
  else some ((List.range num_of_hash_functions.toNat).map
    (fun i => pymod (hash element i) range_size))

/-- The `LRUCache` class from `data_structure.py`: an `OrderedDict` (modelled as a
list in insertion order, oldest first) plus the configured capacity. -/
structure LRUCache where
  cache : List String
  capacity : ℤ

/-- Model of `LRUCache.__init__(capacity)`: empty ordered dict, capacity stored
verbatim (the source performs no validation). -/
def LRUCache.init (capacity : ℤ) : LRUCache :=
  { cache := [], capacity := capacity }

/-- Model of `LRUCache.check_if_exists(key)`: membership in the ordered dict. -/
def LRUCache.check_if_exists (c : LRUCache) (key : String) : Bool :=
  decide (key ∈ c.cache)

/-- Model of `LRUCache.put(key)`: `self.cache[key] = None` followed by
`move_to_end(key)` places `key` last (removing any previous occurrence);
then `popitem(last=False)` evicts the oldest entry if the size exceeds
the capacity. -/
def LRUCache.put (c : LRUCache) (key : String) : LRUCache :=
  let l := c.cache.erase key ++ [key]
  if (l.length : ℤ) > c.capacity then
    { cache := l.tail, capacity := c.capacity }
  else
    { cache := l, capacity := c.capacity }

/-- Repeated `LRUCache.put`, first list element first. -/
def LRUCache.putAll (c : LRUCache) : List String → LRUCache
  | [] => c
  | k :: ks => (c.put k).putAll ks

/-- Model of `len(self.cache)`. -/
def LRUCache.size (c : LRUCache) : ℕ := c.cache.length

/-- The `MinCut` class of `min_cut.py` (the spec's FrequencySketch). -/
structure MinCut where
  hash : String → ℕ → ℤ
  num_of_hash_functions : ℤ
  cache_size : ℤ
  cache : LRUCache
  num_of_buckets : ℤ
  num_of_elements_to_save : ℤ
  table : List (List ℕ)
  elements : Finset String

/-- Model of `MinCut.__init__`: parameters stored verbatim, `k × num_of_buckets`
table of zero counters (`_init_table`), empty element set.  Python's
nested `range` loops produce exactly `List.replicate`d rows (empty for
non-positive dimensions). -/
def MinCut.init (hash : String → ℕ → ℤ)
    (num_of_elements_to_save num_of_buckets num_of_hash_functions
      cache_size : ℤ) : MinCut :=
  { hash := hash
    num_of_hash_functions := num_of_hash_functions
    cache_size := cache_size
    cache := LRUCache.init cache_size
    num_of_buckets := num_of_buckets
    num_of_elements_to_save := num_of_elements_to_save
    table := List.replicate num_of_hash_functions.toNat
      (List.replicate num_of_buckets.toNat 0)
    elements := ∅ }

/-- Read `self.table[i][cell]`. -/
def tableGet (t : List (List ℕ)) (i cell : ℕ) : ℕ :=
  (t.getD i []).getD cell 0

/-- One iteration of the loop body of `MinCut._inc`:
`self.table[i][cell] += 1`. -/
def tableInc (t : List (List ℕ)) (i cell : ℕ) : List (List ℕ) :=
  t.set i ((t.getD i []).set cell (tableGet t i cell + 1))

/-- Model of `MinCut._inc(cells)`: `for i, cell in enumerate(cells):
self.table[i][cell] += 1`, with `i` threaded explicitly. -/
def minCutInc (t : List (List ℕ)) : List ℤ → ℕ → List (List ℕ)
  | [], _ => t
  | c :: cs, i => minCutInc (tableInc t i c.toNat) cs (i + 1)

/-- The loop of `MinCut._count`: running minimum starting from
`sys.maxsize`, scanning `self.table[i][cell]` for `i, cell` in
`enumerate(cells)`. -/
def minCutCountAux (t : List (List ℕ)) : List ℤ → ℕ → ℕ → ℕ
  | [], _, acc => acc
  | c :: cs, i, acc =>
      minCutCountAux t cs (i + 1)
        (if tableGet t i c.toNat < acc then tableGet t i c.toNat else acc)

/-- Model of `MinCut._count(cells)`. -/
def minCutCount (t : List (List ℕ)) (cells : List ℤ) : ℕ :=
  minCutCountAux t cells 0 sysMaxsize

/-- Model of `MinCut.add_new(element)`: refresh the cache, record the element,
hash it over `num_of_buckets` and increment the hashed counters.
`none` models the `ZeroDivisionError` raised by hashing when
`num_of_buckets == 0`. -/
def MinCut.add_new (s : MinCut) (element : String) : Option MinCut :=
  let s1 : MinCut :=
    { s with cache := s.cache.put element, elements := insert element s.elements }
  match getHashValues s1.hash s1.num_of_hash_functions element s1.num_of_buckets with
  | none => none
  | some hv => some { s1 with table := minCutInc s1.table hv 0 }

/-- Model of `MinCut.should_exists(element)`: `m = len(self.elements) /
self.num_of_elements_to_save` (float division, raising when the divisor
is 0, hence the first guard), then `self._count(hashed_values) >= m`. -/
def MinCut.should_exists (s : MinCut) (element : String) : Option Bool :=
  if s.num_of_elements_to_save = 0 then none
  else
    let m : ℚ := (s.elements.card : ℚ) / (s.num_of_elements_to_save : ℚ)
    match getHashValues s.hash s.num_of_hash_functions element s.num_of_buckets with
    | none => none
    | some hv => some (decide (m ≤ (minCutCount s.table hv : ℚ)))

/-- Model of `DataStructure.is_exists(element)` for `MinCut`. -/
def MinCut.is_exists (s : MinCut) (element : String) : Bool :=
  s.cache.check_if_exists element

/-- Run a sequence of `MinCut.add_new` calls. -/
def MinCut.applyOps (s : MinCut) : List String → Option MinCut
  | [] => some s
  | e :: es =>
    match s.add_new e with
    | none => none
    | some s1 => s1.applyOps es

/-- The list of the `k` hashed row counters of `element` that
`MinCut._count` scans: entry `i` is `self.table[i][cells[i]]`. -/
def MinCut.countersOf (s : MinCut) (element : String) : List ℕ :=
  (((getHashValues s.hash s.num_of_hash_functions element
      s.num_of_buckets).getD []).enum).map
    (fun p => tableGet s.table p.1 p.2.toNat)

/-- The minimum-counter estimate computed inside `MinCut.should_exists`
(the value `self._count(hashed_values)` that is compared against `m`). -/
def MinCut.estimate (s : MinCut) (element : String) : ℕ :=
  minCutCount s.table
    ((getHashValues s.hash s.num_of_hash_functions element
      s.num_of_buckets).getD [])

/-- The `SCBloomFilter` class of `selective_counting_bloom_filter.py`
(the spec's SelectiveCountingFilter).  `bound` is the stored admission
threshold, a real number because `_update_bound` computes
`1 / (1 + ALPHA * 2 ** (log(2) * bf_size / max_n))`. -/
structure SCBloomFilter where
  hash : String → ℕ → ℤ
  num_of_hash_functions : ℤ
  cache_size : ℤ
  cache : LRUCache
  n : ℤ
  max_n : ℤ
  bound : ℝ
  bf_size : ℤ
  bloom_filter : List ℕ
  memory_size : ℚ
  elements : Finset String

/-- The fixed value `1 / (1 + ALPHA * math.pow(2, math.log(2, math.e) *
(bf_size / max_n)))` that `SCBloomFilter._update_bound` assigns once
`n > 0`.  `math.log(2, math.e)` is the natural logarithm of 2. -/
noncomputable def boundFormula (bf_size max_n : ℤ) : ℝ :=
  1 / (1 + (ALPHA : ℝ) *
    (2 : ℝ) ^ (Real.log 2 * ((bf_size : ℝ) / (max_n : ℝ))))

/-- Model of `SCBloomFilter._update_bound`: `bound = 0` if `n == 0`, otherwise
the fixed `boundFormula`. -/
noncomputable def updateBoundVal (n bf_size max_n : ℤ) : ℝ :=
  if n = 0 then 0 else boundFormula bf_size max_n

/-- Model of `SCBloomFilter.__init__(num_of_hash_functions, cache_size, bf_size,
max_n, memory_size)`: parameters stored verbatim (no validation),
`n = 0`, `bound = 0` (`_update_bound` runs with `n == 0`), zeroed
counter array `[0] * bf_size`, empty element set. -/
def SCBloomFilter.init (hash : String → ℕ → ℤ)
    (num_of_hash_functions cache_size bf_size max_n : ℤ)
    (memory_size : ℚ) : SCBloomFilter :=
  { hash := hash
    num_of_hash_functions := num_of_hash_functions
    cache_size := cache_size
    cache := LRUCache.init cache_size
    n := 0
    max_n := max_n
    bound := 0
    bf_size := bf_size
    bloom_filter := List.replicate bf_size.toNat 0
    memory_size := memory_size
    elements := ∅ }

/-- Model of `SCBloomFilter._get_apriori_prob`: `len(self.cache) /
self.memory_size`.  (The callers guard the `memory_size == 0`
`ZeroDivisionError` case with an explicit `none`.) -/
def SCBloomFilter.apriori_prob (s : SCBloomFilter) : ℚ :=
  (s.cache.size : ℚ) / s.memory_size

/-- The loop of `SCBloomFilter._add_element_to_bloom_filter`:
`for value in hashed_values: self.bloom_filter[value] += 1`. -/
def bfInc (bf : List ℕ) : List ℤ → List ℕ
  | [] => bf
  | c :: cs => bfInc (bf.set c.toNat (bf.getD c.toNat 0 + 1)) cs

/-- The loop of `SCBloomFilter._check_bloom_filter`: running product of
the hashed counters (accumulator starts at 1), returning 0 as soon as a
hashed counter is 0. -/
def checkBFAux (bf : List ℕ) : List ℤ → ℕ → ℕ
  | [], acc => acc
  | c :: cs, acc =>
      if bf.getD c.toNat 0 = 0 then 0
      else checkBFAux bf cs (acc * bf.getD c.toNat 0)

/-- Model of `SCBloomFilter.add_new(element)` after the unconditional
`self.elements.add(element)` and `self.cache.put(element)`: the
admission decision.  The first guard models the `ZeroDivisionError` of
`_get_apriori_prob` when `memory_size == 0`; the second is
`_satisfy_paradox` (`apriori_prob < bound` means skip); then the
`max_n == n` capacity check; then `_add_element_to_bloom_filter`,
`n += 1` and `_update_bound`. -/
noncomputable def SCBloomFilter.addNewAux (s : SCBloomFilter)
    (element : String) : Option SCBloomFilter :=
  if s.memory_size = 0 then none
  else if ((s.apriori_prob : ℚ) : ℝ) < s.bound then some s
  else if s.max_n = s.n then some s
  else
    match getHashValues s.hash s.num_of_hash_functions element s.bf_size with
    | none => none
    | some hv =>
      some { s with bloom_filter := bfInc s.bloom_filter hv,
                    n := s.n + 1,
                    bound := updateBoundVal (s.n + 1) s.bf_size s.max_n }

/-- Model of `SCBloomFilter.add_new(element)`: record the element, refresh the
cache, then decide admission (`SCBloomFilter.addNewAux`). -/
noncomputable def SCBloomFilter.add_new (s : SCBloomFilter)
    (element : String) : Option SCBloomFilter :=
  SCBloomFilter.addNewAux
    { s with elements := insert element s.elements,
             cache := s.cache.put element } element

/-- The local `nominator` of `SCBloomFilter.should_exists`:
`math.pow(self.bf_size, self.num_of_hash_functions) * bf_ans *
apriori_prob`. -/
def SCBloomFilter.nominator (s : SCBloomFilter) (bf_ans : ℕ) : ℚ :=
  (s.bf_size : ℚ) ^ s.num_of_hash_functions * (bf_ans : ℚ) * s.apriori_prob

/-- The local `denominator` of `SCBloomFilter.should_exists`:
`nominator + math.pow(self.n * self.num_of_hash_functions,
self.num_of_hash_functions) * (1 - apriori_prob)`. -/
def SCBloomFilter.denominator (s : SCBloomFilter) (bf_ans : ℕ) : ℚ :=
  s.nominator bf_ans +
    ((s.n * s.num_of_hash_functions : ℤ) : ℚ) ^ s.num_of_hash_functions
      * (1 - s.apriori_prob)

/-- Model of `SCBloomFilter.should_exists(element)`: `bf_ans =
self._check_bloom_filter(element)`; `False` immediately if `bf_ans == 0`;
otherwise the posterior `nominator / denominator` is compared against
`1 / (1 + ALPHA)`.  `none` models the `ZeroDivisionError` raised when
hashing with `bf_size == 0`, when `memory_size == 0` (inside
`_get_apriori_prob`), or when the denominator is exactly 0. -/
def SCBloomFilter.should_exists (s : SCBloomFilter)
    (element : String) : Option Bool :=
  match getHashValues s.hash s.num_of_hash_functions element s.bf_size with
  | none => none
  | some hv =>
    let bf_ans : ℕ := checkBFAux s.bloom_filter hv 1
    if bf_ans = 0 then some false
    else if s.memory_size = 0 then none
    else if s.denominator bf_ans = 0 then none
    else some (decide (1 / (1 + ALPHA) ≤
      s.nominator bf_ans / s.denominator bf_ans))

/-- Model of `DataStructure.is_exists(element)` for `SCBloomFilter`. -/
def SCBloomFilter.is_exists (s : SCBloomFilter) (element : String) : Bool :=
  s.cache.check_if_exists element

/-- Run a sequence of `SCBloomFilter.add_new` calls. -/
noncomputable def SCBloomFilter.applyOps (s : SCBloomFilter) :
    List String → Option SCBloomFilter
  | [] => some s
  | e :: es =>
    match s.add_new e with
    | none => none
    | some s1 => s1.applyOps es

/-- The list of the `k` hashed Bloom counters of `element` inspected by
`SCBloomFilter._check_bloom_filter`. -/
def SCBloomFilter.bloomCounters (s : SCBloomFilter)
    (element : String) : List ℕ :=
  ((getHashValues s.hash s.num_of_hash_functions element
      s.bf_size).getD []).map
    (fun c => s.bloom_filter.getD c.toNat 0)

/-- A concrete deterministic stand-in for the `pymmh3` hash family, used
only to instantiate theorems at concrete inputs. -/
def demoHash : String → ℕ → ℤ :=
  fun element seed => (element.length : ℤ) + (seed : ℤ)

/-- Follows the spec's words (§4.2, §7): a RecencyOracle constructor
that rejects a non-positive capacity with `InvalidConfiguration`
(modelled as `Except.error`) instead of constructing.  This definition
follows the SPEC, not the source; the source constructor is
`LRUCache.init`. -/
def specValidatedLRUInit (capacity : ℤ) : Except Unit LRUCache :=
  if capacity ≤ 0 then Except.error () else Except.ok (LRUCache.init capacity)

/-- The concrete sketch state reached by inserting `"x"` twice, used
only by the witness below. -/
def c3state : MinCut :=
  ((MinCut.init demoHash 5 10 2 3).applyOps ["x", "x"]).getD
    (MinCut.init demoHash 5 10 2 3)

/-- The state of the C7 counterexample filter after admitting `"a"`. -/
noncomputable def c7s1 : SCBloomFilter :=
  { hash := demoHash, num_of_hash_functions := 1, cache_size := 3,
    cache := { cache := ["a"], capacity := 3 }, n := 1, max_n := 3,
    bound := boundFormula 2 3, bf_size := 2, bloom_filter := [0, 1],
    memory_size := 1, elements := insert "a" ∅ }

/-- The state of the C7 counterexample filter after also admitting
`"bb"`. -/
noncomputable def c7s2 : SCBloomFilter :=
  { hash := demoHash, num_of_hash_functions := 1, cache_size := 3,
    cache := { cache := ["a", "bb"], capacity := 3 }, n := 2, max_n := 3,
    bound := boundFormula 2 3, bf_size := 2, bloom_filter := [1, 1],
    memory_size := 1, elements := insert "bb" (insert "a" ∅) }

/-- The state of the C7 counterexample filter after also admitting
`"cc"`: three admissions, counters `[2, 1]`, oracle window three keys
deep while `memory_size = 1`, so the prior estimate is 3. -/
noncomputable def c7s3 : SCBloomFilter :=
  { hash := demoHash, num_of_hash_functions := 1, cache_size := 3,
    cache := { cache := ["a", "bb", "cc"], capacity := 3 }, n := 3,
    max_n := 3, bound := boundFormula 2 3, bf_size := 2,
    bloom_filter := [2, 1], memory_size := 1,
    elements := insert "cc" (insert "bb" (insert "a" ∅)) }

/-! ## Basic facts about the multi-hash mapping -/

/-- For a positive modulus, Python's `%` is non-negative. -/
lemma pymod_nonneg (a : ℤ) {b : ℤ} (hb : 0 < b) : 0 ≤ pymod a b := by
  unfold pymod
  rw [Int.fmod_eq_emod _ hb.le]
  exact Int.emod_nonneg _ (ne_of_gt hb)

/-- For a positive modulus, Python's `%` is below the modulus. -/
lemma pymod_lt (a : ℤ) {b : ℤ} (hb : 0 < b) : pymod a b < b :=
  Int.fmod_lt_of_pos a hb

/-- When the range is nonzero, hashing succeeds and returns the mapped
`List.range`. -/
lemma getHashValues_eq_some (hash : String → ℕ → ℤ) (k : ℤ) (x : String)
    {r : ℤ} (hr : r ≠ 0) :
    getHashValues hash k x r =
      some ((List.range k.toNat).map (fun i => pymod (hash x i) r)) := by
  unfold getHashValues
  rw [if_neg]
  rintro ⟨-, h0⟩
  exact hr h0

/-! ## Claim C9: range of the hash indexer, and its failure behaviour -/

/-- C9 (amended): for `range_size > 0`, `_get_hash_values` returns
exactly `k` integers, each in `[0, range_size)`, and never fails; for
`k > 0` it fails (raises `ZeroDivisionError`) precisely when
`range_size = 0` — in particular a negative `range_size` does NOT fail. -/
theorem c9_hash_indexer_range (hash : String → ℕ → ℤ) (k : ℤ)
    (x : String) (r : ℤ) :
    (0 < r → ∀ l, getHashValues hash k x r = some l →
      l.length = k.toNat ∧ ∀ v ∈ l, 0 ≤ v ∧ v < r) ∧
    (0 < r → (getHashValues hash k x r).isSome = true) ∧
    (0 < k → (getHashValues hash k x r = none ↔ r = 0)) := by
  refine ⟨?_, ?_, ?_⟩
  · intro hr l hl
    rw [getHashValues_eq_some hash k x (ne_of_gt hr)] at hl
    obtain rfl := Option.some_injective _ hl.symm
    constructor
    · simp
    · intro v hv
      rw [List.mem_map] at hv
      obtain ⟨i, -, rfl⟩ := hv
      exact ⟨pymod_nonneg _ hr, pymod_lt _ hr⟩
  · intro hr
    rw [getHashValues_eq_some hash k x (ne_of_gt hr)]
    rfl
  · intro hk
    constructor
    · intro hnone
      unfold getHashValues at hnone
      by_contra hr
      rw [if_neg] at hnone
      · cases hnone
      · rintro ⟨-, h0⟩; exact hr h0
    · intro hr
      subst hr
      unfold getHashValues
      rw [if_pos ⟨by omega, rfl⟩]

/-- Witness for C9's theorem at a concrete positive range. -/
theorem c9_hash_indexer_range_witness :
    ((getHashValues demoHash 2 "a" 3).isSome = true) ∧
    (getHashValues demoHash 2 "a" 3 = none ↔ (3 : ℤ) = 0) :=
  ⟨(c9_hash_indexer_range demoHash 2 "a" 3).2.1 (by decide),
   (c9_hash_indexer_range demoHash 2 "a" 3).2.2 (by decide)⟩

/-- C9 counterexample: at `range_size = -1` (which is `<= 0`) the hash
indexer does not fail — Python's `%` is total for negative divisors —
so "fails with InvalidRange when range_size <= 0" is false. -/
theorem c9_counterexample : getHashValues demoHash 1 "a" (-1) = some [0] := by
  decide

/-! ## Claim C8: the constructors perform no validation -/

/-- C8 counterexample: at capacity 0 (not strictly positive) the
spec-mandated constructor rejects, but the source constructors all
succeed, store the value verbatim, and produce usable structures —
no constructor in the code validates anything. -/
theorem c8_counterexample :
    specValidatedLRUInit 0 = Except.error () ∧
    LRUCache.init 0 = { cache := [], capacity := 0 } ∧
    ((LRUCache.init 0).put "a").cache = [] ∧
    (MinCut.init demoHash 0 0 0 0).table = [] ∧
    (SCBloomFilter.init demoHash 0 0 0 0 0).bloom_filter = [] := by
  refine ⟨rfl, rfl, by decide, rfl, rfl⟩

/-- C8 (amended): the constructors accept every parameter value,
including non-positive ones, with no exception and no clamping: all
configuration fields are stored verbatim and the fresh state is fully
constructed. -/
theorem c8_constructors_store_verbatim (hash : String → ℕ → ℤ)
    (a b c d : ℤ) (ms : ℚ) :
    (LRUCache.init a).capacity = a ∧
    (LRUCache.init a).cache = [] ∧
    (MinCut.init hash a b c d).num_of_elements_to_save = a ∧
    (MinCut.init hash a b c d).num_of_buckets = b ∧
    (MinCut.init hash a b c d).num_of_hash_functions = c ∧
    (MinCut.init hash a b c d).cache_size = d ∧
    (MinCut.init hash a b c d).elements = ∅ ∧
    (SCBloomFilter.init hash a d b c ms).num_of_hash_functions = a ∧
    (SCBloomFilter.init hash a d b c ms).cache_size = d ∧
    (SCBloomFilter.init hash a d b c ms).bf_size = b ∧
    (SCBloomFilter.init hash a d b c ms).max_n = c ∧
    (SCBloomFilter.init hash a d b c ms).memory_size = ms ∧
    (SCBloomFilter.init hash a d b c ms).n = 0 :=
  ⟨rfl, rfl, rfl, rfl, rfl, rfl, rfl, rfl, rfl, rfl, rfl, rfl, rfl⟩

/-! ## Claim C5: Bloom zero-guarantee -/

/-- If some scanned Bloom counter is zero, `_check_bloom_filter`'s loop
returns 0 (early return in the source). -/
lemma checkBFAux_eq_zero_of_mem (bf : List ℕ) :
    ∀ (cells : List ℤ) (acc : ℕ),
      (∃ c ∈ cells, bf.getD c.toNat 0 = 0) → checkBFAux bf cells acc = 0 := by
  intro cells
  induction cells with
  | nil =>
    rintro acc ⟨c, hc, -⟩
    cases hc
  | cons c cs ih =>
    rintro acc ⟨d, hd, hzero⟩
    by_cases h : bf.getD c.toNat 0 = 0
    · rw [checkBFAux, if_pos h]
    · rcases List.mem_cons.mp hd with rfl | hd
      · exact absurd hzero h
      · rw [checkBFAux, if_neg h]
        exact ih _ ⟨d, hd, hzero⟩

/-- C5: for every `SCBloomFilter` state and key, if any of the key's
hashed Bloom counters is 0, `should_exists` returns `False`. -/
theorem c5_bloom_zero_guarantee (s : SCBloomFilter) (x : String)
    (h : 0 ∈ s.bloomCounters x) : s.should_exists x = some false := by
  unfold SCBloomFilter.bloomCounters at h
  unfold SCBloomFilter.should_exists
  cases hh : getHashValues s.hash s.num_of_hash_functions x s.bf_size with
  | none =>
    rw [hh] at h
    simp at h
  | some hv =>
    rw [hh] at h
    simp only [Option.getD_some, List.mem_map] at h
    obtain ⟨c, hc, hzero⟩ := h
    have hz : checkBFAux s.bloom_filter hv 1 = 0 :=
      checkBFAux_eq_zero_of_mem _ _ _ ⟨c, hc, hzero⟩
    simp [hz]

/-- Witness for C5 at a concrete state: a fresh filter has all counters
zero, and indeed answers `False`. -/
theorem c5_bloom_zero_guarantee_witness :
    0 ∈ (SCBloomFilter.init demoHash 1 1 2 3 1).bloomCounters "a" ∧
    (SCBloomFilter.init demoHash 1 1 2 3 1).should_exists "a" = some false :=
  ⟨by decide, c5_bloom_zero_guarantee _ "a" (by decide)⟩

/-! ## Claim C10: a fresh sketch answers True for every key -/

/-- Evaluation of `List.getD` on a replicated list. -/
lemma getD_replicate {α : Type} (d : α) (n : ℕ) (a : α) (i : ℕ) :
    (List.replicate n a).getD i d = if i < n then a else d := by
  rw [List.getD_eq_getElem?_getD, List.getElem?_replicate]
  by_cases hi : i < n
  · rw [if_pos hi, if_pos hi]
    rfl
  · rw [if_neg hi, if_neg hi]
    rfl

/-- On a table whose entries are all zero (in particular on the freshly
initialised table), every `tableGet` is 0. -/
lemma tableGet_replicate_zero (n m i cell : ℕ) :
    tableGet (List.replicate n (List.replicate m 0)) i cell = 0 := by
  unfold tableGet
  rw [getD_replicate]
  by_cases hi : i < n
  · rw [if_pos hi, getD_replicate]
    by_cases hc : cell < m
    · rw [if_pos hc]
    · rw [if_neg hc]
  · rw [if_neg hi]
    rfl

/-- C10: a freshly constructed `MinCut` (with valid positive divisor and
bucket parameters) answers `should_exists = True` for every key: the
load ratio is `0/num_of_elements_to_save = 0` and the running minimum is
non-negative. -/
theorem c10_fresh_sketch_answers_true (hash : String → ℕ → ℤ)
    (save b k cs : ℤ) (x : String) (hsave : 0 < save) (hb : 0 < b) :
    (MinCut.init hash save b k cs).should_exists x = some true := by
  unfold MinCut.should_exists
  rw [if_neg (show ¬ (MinCut.init hash save b k cs).num_of_elements_to_save = 0
    from ne_of_gt hsave)]
  rw [show (MinCut.init hash save b k cs).hash = hash from rfl,
      show (MinCut.init hash save b k cs).num_of_hash_functions = k from rfl,
      show (MinCut.init hash save b k cs).num_of_buckets = b from rfl,
      getHashValues_eq_some hash k x (ne_of_gt hb)]
  simp only [Option.some.injEq, decide_eq_true_eq]
  rw [show (MinCut.init hash save b k cs).elements = ∅ from rfl]
  simp only [Finset.card_empty, Nat.cast_zero, zero_div]
  exact Nat.cast_nonneg _

/-- Witness for C10 at concrete parameters. -/
theorem c10_fresh_sketch_answers_true_witness :
    (0 : ℤ) < 5 ∧ (0 : ℤ) < 10 ∧
    (MinCut.init demoHash 5 10 2 3).should_exists "10.0.0.1" = some true :=
  ⟨by decide, by decide,
   c10_fresh_sketch_answers_true demoHash 5 10 2 3 "10.0.0.1"
     (by decide) (by decide)⟩

/-! ## Claim C2: `should_exists` compares the minimum counter with `m` -/

/-- The running minimum computed by `MinCut._count` is at least `m` iff
both the initial accumulator and every scanned counter are. -/
lemma minCutCountAux_le_iff (t : List (List ℕ)) (m : ℚ) :
    ∀ (cells : List ℤ) (i acc : ℕ),
      m ≤ (minCutCountAux t cells i acc : ℚ) ↔
        (m ≤ (acc : ℚ) ∧
          ∀ p ∈ cells.enumFrom i, m ≤ (tableGet t p.1 p.2.toNat : ℚ)) := by
  intro cells
  induction cells with
  | nil =>
    intro i acc
    simp [minCutCountAux]
  | cons c cs ih =>
    intro i acc
    rw [minCutCountAux]
    have hmin : (if tableGet t i c.toNat < acc then tableGet t i c.toNat
        else acc) = min (tableGet t i c.toNat) acc := by
      rw [min_def]
      split_ifs <;> omega
    rw [hmin, ih, List.enumFrom_cons]
    constructor
    · rintro ⟨h1, h2⟩
      rw [Nat.cast_min, le_min_iff] at h1
      refine ⟨h1.2, ?_⟩
      intro p hp
      rcases List.mem_cons.mp hp with rfl | hp
      · exact h1.1
      · exact h2 p hp
    · rintro ⟨h1, h2⟩
      refine ⟨?_, fun p hp => h2 p (List.mem_cons_of_mem _ hp)⟩
      rw [Nat.cast_min, le_min_iff]
      exact ⟨h2 (i, c) (List.mem_cons_self _ _), h1⟩

/-- C2: on every `MinCut` state (with a nonzero divisor, at least one
hash function, a nonzero bucket count, and the scanned counters within
`sys.maxsize`, so that the `sys.maxsize` seed of the running minimum is
inert), `should_exists(key)` returns `True` iff the minimum over the
key's `k` hashed row counters is at least `m = |elements| /
num_of_elements_to_save` — stated elementwise: the minimum is `≥ m` iff
every one of the `k` counters is `≥ m`. -/
theorem c2_should_exists_iff_min_ge_ratio (s : MinCut) (x : String)
    (hsave : s.num_of_elements_to_save ≠ 0)
    (hk : 0 < s.num_of_hash_functions)
    (hb : s.num_of_buckets ≠ 0)
    (hbound : ∀ v ∈ s.countersOf x, v ≤ sysMaxsize) :
    (s.should_exists x = some true ↔
      ∀ v ∈ s.countersOf x,
        (s.elements.card : ℚ) / (s.num_of_elements_to_save : ℚ) ≤ (v : ℚ)) := by
  unfold MinCut.countersOf at hbound ⊢
  unfold MinCut.should_exists
  rw [if_neg hsave, getHashValues_eq_some s.hash _ x hb] at *
  set m : ℚ := (s.elements.card : ℚ) / (s.num_of_elements_to_save : ℚ) with hm
  set hv : List ℤ := (List.range s.num_of_hash_functions.toNat).map
    (fun i => pymod (s.hash x i) s.num_of_buckets) with hhv
  simp only [Option.getD_some, Option.some.injEq, decide_eq_true_eq,
    List.forall_mem_map] at hbound ⊢
  unfold minCutCount
  rw [minCutCountAux_le_iff]
  show (m ≤ (sysMaxsize : ℚ) ∧ _) ↔ _
  constructor
  · rintro ⟨-, h2⟩
    intro p hp
    exact h2 p hp
  · intro h2
    refine ⟨?_, fun p hp => h2 p hp⟩
    have hlen : 0 < hv.enum.length := by
      rw [List.enum_length, hhv, List.length_map, List.length_range]
      omega
    obtain ⟨p0, hp0⟩ := List.exists_mem_of_length_pos hlen
    calc m ≤ (tableGet s.table p0.1 p0.2.toNat : ℚ) := h2 p0 hp0
      _ ≤ (sysMaxsize : ℚ) := by exact_mod_cast hbound p0 hp0

/-- Witness for C2 at a concrete state. -/
theorem c2_should_exists_iff_min_ge_ratio_witness :
    ((MinCut.init demoHash 1 1 1 1).should_exists "a" = some true ↔
      ∀ v ∈ (MinCut.init demoHash 1 1 1 1).countersOf "a",
        ((MinCut.init demoHash 1 1 1 1).elements.card : ℚ) /
          ((MinCut.init demoHash 1 1 1 1).num_of_elements_to_save : ℚ) ≤ (v : ℚ)) :=
  c2_should_exists_iff_min_ge_ratio (MinCut.init demoHash 1 1 1 1) "a"
    (by decide) (by decide) (by decide) (by decide)

/-! ## Claim C3: the no-underestimate property -/

/-- A `List.getD`-level description of a single-cell `List.set`. -/
lemma getD_set (l : List ℕ) (j j' v : ℕ) :
    (l.set j v).getD j' 0 = if j = j' ∧ j < l.length then v else l.getD j' 0 := by
  rw [List.getD_eq_getElem?_getD, List.getElem?_set]
  by_cases h : j = j'
  · subst h
    by_cases hl : j < l.length
    · rw [if_pos rfl, if_pos hl, if_pos ⟨rfl, hl⟩]
      rfl
    · rw [if_pos rfl, if_neg hl, if_neg (by tauto)]
      rw [List.getD_eq_getElem?_getD, List.getElem?_eq_none (by omega)]
  · rw [if_neg h, if_neg (by tauto), List.getD_eq_getElem?_getD]

/-- The row that `tableInc` leaves at index `r`. -/
lemma getD_tableInc (t : List (List ℕ)) (i j r : ℕ) :
    (tableInc t i j).getD r [] =
      if i = r ∧ i < t.length then (t.getD i []).set j (tableGet t i j + 1)
      else t.getD r [] := by
  unfold tableInc
  rw [List.getD_eq_getElem?_getD, List.getElem?_set]
  by_cases h : i = r
  · subst h
    by_cases hl : i < t.length
    · rw [if_pos rfl, if_pos hl, if_pos ⟨rfl, hl⟩]
      rfl
    · rw [if_pos rfl, if_neg hl, if_neg (by tauto)]
      rw [List.getD_eq_getElem?_getD, List.getElem?_eq_none (by omega)]
  · rw [if_neg h, if_neg (by tauto), List.getD_eq_getElem?_getD]

/-- The update `tableInc` preserves the number of rows. -/
lemma tableInc_length (t : List (List ℕ)) (i j : ℕ) :
    (tableInc t i j).length = t.length := List.length_set _ _ _

/-- The update `tableInc` preserves every row length. -/
lemma tableInc_row_length (t : List (List ℕ)) (i j r : ℕ) :
    ((tableInc t i j).getD r []).length = (t.getD r []).length := by
  rw [getD_tableInc]
  by_cases h : i = r ∧ i < t.length
  · rw [if_pos h, List.length_set]
    rw [h.1]
  · rw [if_neg h]

/-- Full description of a counter after `tableInc`: incremented exactly
at the (in-bounds) target cell, unchanged elsewhere. -/
lemma tableGet_tableInc (t : List (List ℕ)) (i j i' j' : ℕ) :
    tableGet (tableInc t i j) i' j' =
      if i = i' ∧ j = j' ∧ i < t.length ∧ j < (t.getD i []).length then
        tableGet t i' j' + 1
      else tableGet t i' j' := by
  show ((tableInc t i j).getD i' []).getD j' 0 = _
  rw [getD_tableInc]
  by_cases h1 : i = i'
  · subst h1
    by_cases h2 : i < t.length
    · rw [if_pos ⟨rfl, h2⟩, getD_set]
      by_cases h3 : j = j' ∧ j < (t.getD i []).length
      · rw [if_pos h3, if_pos ⟨rfl, h3.1, h2, h3.2⟩, h3.1]
      · rw [if_neg h3, if_neg (by tauto)]
        rfl
    · rw [if_neg (by tauto), if_neg (by tauto)]
      rfl
  · rw [if_neg (by tauto), if_neg (by tauto)]
    rfl

/-- Counters never decrease across one `tableInc`. -/
lemma tableGet_le_tableInc (t : List (List ℕ)) (i j i' j' : ℕ) :
    tableGet t i' j' ≤ tableGet (tableInc t i j) i' j' := by
  rw [tableGet_tableInc]
  split_ifs <;> omega

/-- The update `minCutInc` preserves the table dimensions. -/
lemma minCutInc_dims (cells : List ℤ) : ∀ (t : List (List ℕ)) (i0 : ℕ),
    (minCutInc t cells i0).length = t.length ∧
    ∀ r, ((minCutInc t cells i0).getD r []).length = (t.getD r []).length := by
  induction cells with
  | nil =>
    intro t i0
    exact ⟨rfl, fun r => rfl⟩
  | cons c cs ih =>
    intro t i0
    rw [minCutInc]
    obtain ⟨h1, h2⟩ := ih (tableInc t i0 c.toNat) (i0 + 1)
    refine ⟨?_, fun r => ?_⟩
    · rw [h1, tableInc_length]
    · rw [h2 r, tableInc_row_length]

/-- Counters never decrease across `minCutInc` (monotonicity of one
`MinCut._inc` call). -/
lemma tableGet_le_minCutInc (cells : List ℤ) :
    ∀ (t : List (List ℕ)) (i0 r c : ℕ),
      tableGet t r c ≤ tableGet (minCutInc t cells i0) r c := by
  induction cells with
  | nil =>
    intro t i0 r c
    rw [minCutInc]
  | cons d cs ih =>
    intro t i0 r c
    rw [minCutInc]
    exact le_trans (tableGet_le_tableInc t i0 d.toNat r c) (ih _ _ r c)

/-- Each in-bounds scanned cell gains at least 1 from `MinCut._inc` on
its own cell list. -/
lemma tableGet_minCutInc_hit (cells : List ℤ) :
    ∀ (t : List (List ℕ)) (i0 : ℕ) (p : ℕ × ℤ), p ∈ cells.enumFrom i0 →
      p.1 < t.length → p.2.toNat < (t.getD p.1 []).length →
      tableGet t p.1 p.2.toNat + 1 ≤
        tableGet (minCutInc t cells i0) p.1 p.2.toNat := by
  induction cells with
  | nil =>
    intro t i0 p hp
    simp at hp
  | cons d cs ih =>
    intro t i0 p hp hb1 hb2
    rw [List.enumFrom_cons] at hp
    rw [minCutInc]
    rcases List.mem_cons.mp hp with rfl | hp
    · have hhit : tableGet (tableInc t i0 d.toNat) i0 d.toNat =
          tableGet t i0 d.toNat + 1 := by
        rw [tableGet_tableInc, if_pos ⟨rfl, rfl, hb1, hb2⟩]
      calc tableGet t i0 d.toNat + 1
          = tableGet (tableInc t i0 d.toNat) i0 d.toNat := hhit.symm
        _ ≤ tableGet (minCutInc (tableInc t i0 d.toNat) cs (i0 + 1)) i0 d.toNat :=
          tableGet_le_minCutInc cs _ _ _ _
    · have hle : tableGet t p.1 p.2.toNat ≤
          tableGet (tableInc t i0 d.toNat) p.1 p.2.toNat :=
        tableGet_le_tableInc t i0 d.toNat p.1 p.2.toNat
      have hb1' : p.1 < (tableInc t i0 d.toNat).length := by
        rw [tableInc_length]
        exact hb1
      have hb2' : p.2.toNat < ((tableInc t i0 d.toNat).getD p.1 []).length := by
        rw [tableInc_row_length]
        exact hb2
      have := ih (tableInc t i0 d.toNat) (i0 + 1) p hp hb1' hb2'
      omega

/-- Unpacking one successful `MinCut.add_new` call. -/
lemma MinCut.add_new_some {s s' : MinCut} {e : String}
    (h : s.add_new e = some s') :
    s'.hash = s.hash ∧ s'.num_of_hash_functions = s.num_of_hash_functions ∧
    s'.num_of_buckets = s.num_of_buckets ∧
    s'.num_of_elements_to_save = s.num_of_elements_to_save ∧
    ∃ hv, getHashValues s.hash s.num_of_hash_functions e s.num_of_buckets
        = some hv ∧ s'.table = minCutInc s.table hv 0 := by
  replace h : (match getHashValues s.hash s.num_of_hash_functions e
      s.num_of_buckets with
    | none => (none : Option MinCut)
    | some hv => some
        { s with cache := s.cache.put e, elements := insert e s.elements,
                 table := minCutInc s.table hv 0 }) = some s' := h
  cases hh : getHashValues s.hash s.num_of_hash_functions e s.num_of_buckets with
  | none =>
    rw [hh] at h
    cases h
  | some hv =>
    rw [hh] at h
    obtain rfl := (Option.some_injective _ h).symm
    exact ⟨rfl, rfl, rfl, rfl, hv, rfl, rfl⟩

/-- Invariant along a run of `MinCut.add_new` calls: the configuration
fields and the table dimensions are constant, and every in-bounds cell
of a key `x` grows by at least the number of times `x` was inserted. -/
lemma minCut_applyOps_cell_bound (ops : List String) :
    ∀ (s s' : MinCut), s.applyOps ops = some s' →
      s'.hash = s.hash ∧ s'.num_of_hash_functions = s.num_of_hash_functions ∧
      s'.num_of_buckets = s.num_of_buckets ∧
      s'.num_of_elements_to_save = s.num_of_elements_to_save ∧
      s'.table.length = s.table.length ∧
      (∀ r, (s'.table.getD r []).length = (s.table.getD r []).length) ∧
      ∀ (x : String) (p : ℕ × ℤ),
        p ∈ ((getHashValues s.hash s.num_of_hash_functions x
          s.num_of_buckets).getD []).enumFrom 0 →
        p.1 < s.table.length → p.2.toNat < (s.table.getD p.1 []).length →
        tableGet s.table p.1 p.2.toNat + ops.count x ≤
          tableGet s'.table p.1 p.2.toNat := by
  induction ops with
  | nil =>
    intro s s' h
    replace h : some s = some s' := h
    obtain rfl := Option.some_injective _ h
    exact ⟨rfl, rfl, rfl, rfl, rfl, fun r => rfl,
      fun x p hp h1 h2 => by simp⟩
  | cons e es ih =>
    intro s s' h
    replace h : (match s.add_new e with
      | none => (none : Option MinCut)
      | some s1 => s1.applyOps es) = some s' := h
    cases ha : s.add_new e with
    | none =>
      rw [ha] at h
      cases h
    | some s1 =>
      rw [ha] at h
      obtain ⟨hh, hk, hb, hsv, hv, hhv, htab⟩ := MinCut.add_new_some ha
      obtain ⟨ih1, ih2, ih3, ih4, ih5, ih6, ih7⟩ := ih s1 s' h
      have hdims := minCutInc_dims hv s.table 0
      have hlen1 : s1.table.length = s.table.length := by
        rw [htab]
        exact hdims.1
      have hrow1 : ∀ r, (s1.table.getD r []).length = (s.table.getD r []).length := by
        intro r
        rw [htab]
        exact hdims.2 r
      refine ⟨ih1.trans hh, ih2.trans hk, ih3.trans hb, ih4.trans hsv,
        ih5.trans hlen1, fun r => (ih6 r).trans (hrow1 r), ?_⟩
      intro x p hp h1 h2
      have hcount : (e :: es).count x = es.count x + if e == x then 1 else 0 :=
        List.count_cons x e es
      have h1' : p.1 < s1.table.length := by
        rw [hlen1]
        exact h1
      have h2' : p.2.toNat < (s1.table.getD p.1 []).length := by
        rw [hrow1]
        exact h2
      have hp' : p ∈ ((getHashValues s1.hash s1.num_of_hash_functions x
          s1.num_of_buckets).getD []).enumFrom 0 := by
        rw [hh, hk, hb]
        exact hp
      have hih := ih7 x p hp' h1' h2'
      by_cases hex : e = x
      · subst hex
        have hhit : tableGet s.table p.1 p.2.toNat + 1 ≤
            tableGet s1.table p.1 p.2.toNat := by
          rw [htab]
          refine tableGet_minCutInc_hit hv s.table 0 p ?_ h1 h2
          rw [hhv] at hp
          exact hp
        rw [hcount, if_pos (by exact beq_iff_eq.mpr rfl)]
        omega
      · have hmono : tableGet s.table p.1 p.2.toNat ≤
            tableGet s1.table p.1 p.2.toNat := by
          rw [htab]
          exact tableGet_le_minCutInc hv s.table 0 p.1 p.2.toNat
        rw [hcount, if_neg (by simp [hex])]
        omega

/-- C3: if a key `x` is inserted `c` times in a run of `add_new` calls
(starting from a fresh sketch with a positive bucket count), the
minimum-counter estimate for `x` — the value `should_exists` compares
against the load ratio — is at least `c`.  (`c ≤ sys.maxsize` keeps the
seed of the running minimum inert; `c` would otherwise have to exceed
`2^63 - 1` insertions.) -/
theorem c3_no_underestimate (hash : String → ℕ → ℤ)
    (save b k cs : ℤ) (hb : 0 < b) (ops : List String) (x : String)
    (s : MinCut) (h : (MinCut.init hash save b k cs).applyOps ops = some s)
    (hc : ops.count x ≤ sysMaxsize) :
    ops.count x ≤ s.estimate x := by
  obtain ⟨hh, hk, hbq, -, -, -, h7⟩ :=
    minCut_applyOps_cell_bound ops (MinCut.init hash save b k cs) s h
  simp only [MinCut.init] at hh hk hbq h7
  have hsome : getHashValues hash k x b =
      some ((List.range k.toNat).map (fun i => pymod (hash x i) b)) :=
    getHashValues_eq_some hash k x (ne_of_gt hb)
  set hv : List ℤ := (List.range k.toNat).map (fun i => pymod (hash x i) b)
    with hhv
  have hvs : ∀ v ∈ hv, 0 ≤ v ∧ v < b := by
    intro v hvmem
    rw [hhv] at hvmem
    rw [List.mem_map] at hvmem
    obtain ⟨i, -, rfl⟩ := hvmem
    exact ⟨pymod_nonneg _ hb, pymod_lt _ hb⟩
  have hvlen : hv.length = k.toNat := by
    rw [hhv, List.length_map, List.length_range]
  have hgetd : (getHashValues hash k x b).getD [] = hv := by
    rw [hsome]
    rfl
  unfold MinCut.estimate
  rw [hh, hk, hbq, hsome]
  show ops.count x ≤ minCutCount s.table hv
  have key : ((ops.count x : ℚ)) ≤ (minCutCountAux s.table hv 0 sysMaxsize : ℚ) := by
    rw [minCutCountAux_le_iff]
    refine ⟨by exact_mod_cast hc, ?_⟩
    intro p hp
    have hmem := List.mem_enumFrom hp
    obtain ⟨-, hlt, heq⟩ := hmem
    have hp1 : p.1 < k.toNat := by
      rw [← hvlen]
      omega
    have hp2 : 0 ≤ p.2 ∧ p.2 < b := by
      refine hvs p.2 ?_
      rw [heq]
      exact List.getElem_mem _
    have hp2' : p.2.toNat < b.toNat := by omega
    have hb1 : p.1 < (List.replicate k.toNat (List.replicate b.toNat 0)).length := by
      rw [List.length_replicate]
      exact hp1
    have hb2 : p.2.toNat <
        ((List.replicate k.toNat (List.replicate b.toNat 0)).getD p.1 []).length := by
      rw [getD_replicate, if_pos hp1, List.length_replicate]
      exact hp2'
    have hstep := h7 x p (by rw [hgetd]; exact hp) hb1 hb2
    rw [tableGet_replicate_zero] at hstep
    have : ops.count x ≤ tableGet s.table p.1 p.2.toNat := by omega
    exact_mod_cast this
  exact_mod_cast key

/-- Witness for C3 at a concrete run. -/
theorem c3_no_underestimate_witness :
    ["x", "x"].count "x" ≤ sysMaxsize ∧
    ["x", "x"].count "x" ≤ c3state.estimate "x" :=
  ⟨by decide,
   c3_no_underestimate demoHash 5 10 2 3 (by decide) ["x", "x"] "x" c3state
     (by rfl) (by decide)⟩

/-! ## Claim C4: RecencyOracle size bound, refresh, eviction, window -/

/-- Restatement of `LRUCache.put` with its `let` unfolded. -/
lemma LRUCache.put_def (c : LRUCache) (key : String) :
    c.put key =
      if ((c.cache.erase key ++ [key]).length : ℤ) > c.capacity then
        { cache := (c.cache.erase key ++ [key]).tail, capacity := c.capacity }
      else { cache := c.cache.erase key ++ [key], capacity := c.capacity } := rfl

/-- The operation `put` never changes the configured capacity. -/
lemma LRUCache.put_capacity (c : LRUCache) (key : String) :
    (c.put key).capacity = c.capacity := by
  rw [LRUCache.put_def]
  split_ifs <;> rfl

/-- After a `put` the size still respects the capacity (for non-negative
capacities; `max` guards degenerate negative capacities). -/
lemma LRUCache.put_size_le (c : LRUCache) (key : String)
    (h : (c.cache.length : ℤ) ≤ max c.capacity 0) :
    (((c.put key).cache.length : ℤ)) ≤ max c.capacity 0 := by
  have herase : (c.cache.erase key).length ≤ c.cache.length :=
    (List.erase_sublist key c.cache).length_le
  have hmax : (0 : ℤ) ≤ max c.capacity 0 := le_max_right _ _
  rw [LRUCache.put_def]
  split_ifs with hgt
  · simp only [List.length_tail, List.length_append, List.length_singleton]
    push_cast
    rw [List.length_append, List.length_singleton] at hgt
    push_cast at hgt
    omega
  · rw [not_lt] at hgt
    calc (((c.cache.erase key ++ [key]).length : ℤ)) ≤ c.capacity := hgt
      _ ≤ max c.capacity 0 := le_max_left _ _

/-- The operation `putAll` never changes the configured capacity. -/
lemma LRUCache.putAll_capacity (ks : List String) :
    ∀ c : LRUCache, (c.putAll ks).capacity = c.capacity := by
  induction ks with
  | nil => intro c; rfl
  | cons k ks ih =>
    intro c
    rw [LRUCache.putAll, ih, LRUCache.put_capacity]

/-- The capacity bound is invariant under any `putAll` run. -/
lemma LRUCache.putAll_size_le (ks : List String) :
    ∀ c : LRUCache, (c.cache.length : ℤ) ≤ max c.capacity 0 →
      (((c.putAll ks).cache.length : ℤ)) ≤ max c.capacity 0 := by
  induction ks with
  | nil => intro c h; exact h
  | cons k ks ih =>
    intro c h
    rw [LRUCache.putAll]
    have := ih (c.put k) (by
      rw [LRUCache.put_capacity]
      exact c.put_size_le k h)
    rw [LRUCache.put_capacity] at this
    exact this

/-- The operation `putAll` splits across list append. -/
lemma LRUCache.putAll_append (l1 l2 : List String) :
    ∀ c : LRUCache, c.putAll (l1 ++ l2) = (c.putAll l1).putAll l2 := by
  induction l1 with
  | nil => intro c; rfl
  | cons k ks ih =>
    intro c
    rw [List.cons_append, LRUCache.putAll, LRUCache.putAll, ih]

/-- Characterisation of a fresh cache after inserting distinct keys: it
holds exactly the last `capacity` of them, in order. -/
lemma LRUCache.putAll_init_nodup (N : ℤ) (hN : 0 ≤ N) (ks : List String)
    (hnd : ks.Nodup) :
    ((LRUCache.init N).putAll ks).cache = ks.drop (ks.length - N.toNat) := by
  induction ks using List.reverseRecOn with
  | nil =>
    rw [List.drop_nil]
    rfl
  | append_singleton ks k ih =>
    obtain ⟨hnd1, -, hdisj⟩ := List.nodup_append.mp hnd
    have hk : k ∉ ks := fun hmem => hdisj hmem (List.mem_singleton_self k)
    have ihe := ih hnd1
    rw [LRUCache.putAll_append,
      show ∀ c : LRUCache, c.putAll [k] = c.put k from fun c => rfl,
      LRUCache.put_def, LRUCache.putAll_capacity]
    have hknotin : k ∉ ((LRUCache.init N).putAll ks).cache := by
      rw [ihe]
      exact fun hmem => hk (List.mem_of_mem_drop hmem)
    rw [List.erase_of_not_mem hknotin, ihe]
    have hNt : (N.toNat : ℤ) = N := Int.toNat_of_nonneg hN
    have hdlen : (ks.drop (ks.length - N.toNat)).length =
        ks.length - (ks.length - N.toNat) := List.length_drop _ _
    by_cases hge : N.toNat ≤ ks.length
    · have hcond : ((ks.drop (ks.length - N.toNat) ++ [k]).length : ℤ) >
          (LRUCache.init N).capacity := by
        rw [List.length_append, List.length_singleton, hdlen]
        show ((ks.length - (ks.length - N.toNat) + 1 : ℕ) : ℤ) > N
        omega
      rw [if_pos hcond]
      show (ks.drop (ks.length - N.toNat) ++ [k]).tail =
        (ks ++ [k]).drop ((ks ++ [k]).length - N.toNat)
      rw [List.length_append, List.length_singleton]
      by_cases hzero : N.toNat = 0
      · rw [hzero]
        have h1 : List.drop (ks.length - 0) ks = [] := by
          rw [Nat.sub_zero]
          exact List.drop_length ks
        rw [h1]
        have h2 : List.drop (ks.length + 1 - 0) (ks ++ [k]) = [] := by
          have harith : ks.length + 1 - 0 = (ks ++ [k]).length := by
            rw [List.length_append, List.length_singleton]
            omega
          rw [harith]
          exact List.drop_length _
        rw [h2]
        rfl
      · have hne : ks.drop (ks.length - N.toNat) ≠ [] := by
          intro hnil
          rw [hnil] at hdlen
          simp at hdlen
          omega
        rw [List.tail_append_of_ne_nil hne, List.tail_drop]
        have harith : ks.length + 1 - N.toNat = ks.length - N.toNat + 1 := by
          omega
        rw [harith, List.drop_append_of_le_length (by omega)]
    · have hlt : ks.length < N.toNat := by omega
      have hdrop0 : ks.length - N.toNat = 0 := by omega
      have hcond : ¬ (((ks.drop (ks.length - N.toNat) ++ [k]).length : ℤ) >
          (LRUCache.init N).capacity) := by
        rw [List.length_append, List.length_singleton, hdlen]
        show ¬ (((ks.length - (ks.length - N.toNat) + 1 : ℕ) : ℤ) > N)
        omega
      rw [if_neg hcond]
      show ks.drop (ks.length - N.toNat) ++ [k] =
        (ks ++ [k]).drop ((ks ++ [k]).length - N.toNat)
      rw [List.length_append, List.length_singleton, hdrop0]
      have : ks.length + 1 - N.toNat = 0 := by omega
      rw [this, List.drop_zero, List.drop_zero]

/-- C4: for a positive capacity `N`: (1) the stored key count never
exceeds `N` on any run; (2) putting an already-present key keeps the
size and the key set and moves the key to the most-recent end; (3) a new
key at full capacity evicts exactly the single oldest key; (4) after
inserting `N+1` distinct keys in order, `check_if_exists` is `false` on
the oldest and `true` on each of the `N` most recent. -/
theorem c4_recency_oracle (N : ℤ) (hN : 0 < N) :
    (∀ ks : List String,
      (((LRUCache.init N).putAll ks).cache.length : ℤ) ≤ N) ∧
    (∀ (c : LRUCache) (key : String), c.capacity = N →
      (c.cache.length : ℤ) ≤ N → key ∈ c.cache →
      ((c.put key).cache.length = c.cache.length ∧
       (∀ x, x ∈ (c.put key).cache ↔ x ∈ c.cache) ∧
       (c.put key).cache.getLast? = some key)) ∧
    (∀ (c : LRUCache) (key : String), c.capacity = N →
      (c.cache.length : ℤ) = N → key ∉ c.cache →
      (c.put key).cache = c.cache.tail ++ [key]) ∧
    (∀ ks : List String, ks.Nodup → (ks.length : ℤ) = N + 1 →
      ((LRUCache.init N).putAll ks).check_if_exists (ks.headD "") = false ∧
      ∀ x ∈ ks.tail,
        ((LRUCache.init N).putAll ks).check_if_exists x = true) := by
  refine ⟨?_, ?_, ?_, ?_⟩
  · intro ks
    have h0 : (((LRUCache.init N).cache.length : ℤ)) ≤
        max (LRUCache.init N).capacity 0 := by
      show ((([] : List String).length : ℤ)) ≤ max N 0
      simp
    have hrun := LRUCache.putAll_size_le ks (LRUCache.init N) h0
    have hmax : max (LRUCache.init N).capacity 0 = N := by
      show max N 0 = N
      exact max_eq_left hN.le
    rw [hmax] at hrun
    exact hrun
  · intro c key hcap hlen hmem
    have hlen_eq : (c.cache.erase key ++ [key]).length = c.cache.length := by
      rw [List.length_append, List.length_singleton,
        List.length_erase_of_mem hmem]
      have : 1 ≤ c.cache.length := List.length_pos.mpr (List.ne_nil_of_mem hmem)
      omega
    have hcond : ¬ (((c.cache.erase key ++ [key]).length : ℤ) > c.capacity) := by
      rw [hlen_eq, hcap]
      omega
    rw [LRUCache.put_def, if_neg hcond]
    refine ⟨hlen_eq, ?_, List.getLast?_concat _⟩
    intro x
    by_cases hx : x = key
    · subst hx
      simp [hmem]
    · rw [List.mem_append]
      constructor
      · rintro (h | h)
        · exact (List.mem_erase_of_ne hx).mp h
        · rw [List.mem_singleton] at h
          exact absurd h hx
      · intro h
        exact Or.inl ((List.mem_erase_of_ne hx).mpr h)
  · intro c key hcap hlen hmem
    have hcond : ((c.cache.erase key ++ [key]).length : ℤ) > c.capacity := by
      rw [List.erase_of_not_mem hmem, List.length_append,
        List.length_singleton, hcap]
      push_cast
      omega
    rw [LRUCache.put_def, if_pos hcond, List.erase_of_not_mem hmem]
    show (c.cache ++ [key]).tail = c.cache.tail ++ [key]
    have hne : c.cache ≠ [] := by
      intro hnil
      rw [hnil] at hlen
      simp at hlen
      omega
    exact List.tail_append_of_ne_nil hne
  · intro ks hnd hlen4
    have hchar := LRUCache.putAll_init_nodup N hN.le ks hnd
    have hNt : (N.toNat : ℤ) = N := Int.toNat_of_nonneg hN.le
    have hdrop : ks.length - N.toNat = 1 := by omega
    rw [hdrop, List.drop_one] at hchar
    cases ks with
    | nil =>
      exfalso
      simp at hlen4
      omega
    | cons h0 t =>
      rw [List.tail_cons] at hchar
      constructor
      · show ((LRUCache.init N).putAll (h0 :: t)).check_if_exists h0 = false
        unfold LRUCache.check_if_exists
        rw [hchar]
        exact decide_eq_false (List.nodup_cons.mp hnd).1
      · intro x hx
        unfold LRUCache.check_if_exists
        rw [hchar]
        rw [List.tail_cons] at hx
        exact decide_eq_true hx

/-- Witness for C4: the spec's own example with capacity 3 and four
distinct keys. -/
theorem c4_recency_oracle_witness :
    (0 : ℤ) < 3 ∧
    ((LRUCache.init 3).putAll
      ["10.0.0.1", "10.0.0.2", "10.0.0.3", "10.0.0.4"]).check_if_exists
        "10.0.0.1" = false :=
  ⟨by decide, by
    have h := (c4_recency_oracle 3 (by decide)).2.2.2
      ["10.0.0.1", "10.0.0.2", "10.0.0.3", "10.0.0.4"] (by decide) (by decide)
    exact h.1⟩

/-! ## SCBloomFilter: anatomy of one `add_new` call -/

/-- Equation lemma restating `SCBloomFilter.addNewAux`. -/
lemma SCBloomFilter.addNewAux_def (s : SCBloomFilter) (e : String) :
    SCBloomFilter.addNewAux s e =
      if s.memory_size = 0 then none
      else if ((s.apriori_prob : ℚ) : ℝ) < s.bound then some s
      else if s.max_n = s.n then some s
      else
        match getHashValues s.hash s.num_of_hash_functions e s.bf_size with
        | none => none
        | some hv =>
          some { s with bloom_filter := bfInc s.bloom_filter hv,
                        n := s.n + 1,
                        bound := updateBoundVal (s.n + 1) s.bf_size s.max_n } :=
  rfl

/-- Unpacking one successful `SCBloomFilter.add_new` call: the
configuration fields are unchanged, cache and element set are refreshed
unconditionally, and either the admission was skipped (the paradox check
fired, or the capacity `max_n` was reached) leaving `n`, the counters
and `bound` unchanged, or the key was admitted: `max_n ≠ n`, the hashed
counters are incremented, `n` grows by 1 and `bound` is recomputed. -/
lemma SCBloomFilter.add_new_cases {s s' : SCBloomFilter} {e : String}
    (h : s.add_new e = some s') :
    s.memory_size ≠ 0 ∧
    s'.hash = s.hash ∧ s'.num_of_hash_functions = s.num_of_hash_functions ∧
    s'.cache_size = s.cache_size ∧ s'.max_n = s.max_n ∧
    s'.bf_size = s.bf_size ∧ s'.memory_size = s.memory_size ∧
    s'.cache = s.cache.put e ∧ s'.elements = insert e s.elements ∧
    ((s'.n = s.n ∧ s'.bloom_filter = s.bloom_filter ∧ s'.bound = s.bound) ∨
     (s.max_n ≠ s.n ∧ s'.n = s.n + 1 ∧
      s'.bound = updateBoundVal (s.n + 1) s.bf_size s.max_n ∧
      ∃ hv, getHashValues s.hash s.num_of_hash_functions e s.bf_size
          = some hv ∧ s'.bloom_filter = bfInc s.bloom_filter hv)) := by
  set s1 : SCBloomFilter :=
    { s with elements := insert e s.elements, cache := s.cache.put e }
    with hs1
  replace h : SCBloomFilter.addNewAux s1 e = some s' := h
  rw [SCBloomFilter.addNewAux_def] at h
  by_cases h1 : s1.memory_size = 0
  · rw [if_pos h1] at h
    cases h
  rw [if_neg h1] at h
  have hms : s.memory_size ≠ 0 := h1
  by_cases h2 : ((s1.apriori_prob : ℚ) : ℝ) < s1.bound
  · rw [if_pos h2] at h
    obtain rfl := (Option.some_injective _ h).symm
    exact ⟨hms, rfl, rfl, rfl, rfl, rfl, rfl, rfl, rfl,
      Or.inl ⟨rfl, rfl, rfl⟩⟩
  rw [if_neg h2] at h
  by_cases h3 : s1.max_n = s1.n
  · rw [if_pos h3] at h
    obtain rfl := (Option.some_injective _ h).symm
    exact ⟨hms, rfl, rfl, rfl, rfl, rfl, rfl, rfl, rfl,
      Or.inl ⟨rfl, rfl, rfl⟩⟩
  rw [if_neg h3] at h
  cases hh : getHashValues s1.hash s1.num_of_hash_functions e s1.bf_size with
  | none =>
    rw [hh] at h
    cases h
  | some hv =>
    rw [hh] at h
    obtain rfl := (Option.some_injective _ h).symm
    exact ⟨hms, rfl, rfl, rfl, rfl, rfl, rfl, rfl, rfl,
      Or.inr ⟨h3, rfl, rfl, ⟨hv, rfl, rfl⟩⟩⟩

/-- Invariants transported along a run of `SCBloomFilter.add_new` calls:
configuration constancy, `n` bounds, the two-phase shape of `bound`,
the all-zero counter array while `n = 0`, and the cache size bound. -/
lemma scbf_run (ops : List String) :
    ∀ s s' : SCBloomFilter, s.applyOps ops = some s' →
      s'.hash = s.hash ∧ s'.num_of_hash_functions = s.num_of_hash_functions ∧
      s'.bf_size = s.bf_size ∧ s'.max_n = s.max_n ∧
      s'.memory_size = s.memory_size ∧
      s'.cache.capacity = s.cache.capacity ∧
      (0 ≤ s.n → 0 ≤ s'.n) ∧
      (s.n ≤ s.max_n → s'.n ≤ s'.max_n) ∧
      (((s.n = 0 → s.bound = 0) ∧
        (0 < s.n → s.bound = boundFormula s.bf_size s.max_n)) →
        ((s'.n = 0 → s'.bound = 0) ∧
          (0 < s'.n → s'.bound = boundFormula s.bf_size s.max_n))) ∧
      ((0 ≤ s.n ∧ (s.n = 0 → ∀ j, s.bloom_filter.getD j 0 = 0)) →
        (s'.n = 0 → ∀ j, s'.bloom_filter.getD j 0 = 0)) ∧
      ((s.cache.cache.length : ℤ) ≤ max s.cache.capacity 0 →
        (s'.cache.cache.length : ℤ) ≤ max s'.cache.capacity 0) := by
  induction ops with
  | nil =>
    intro s s' h
    replace h : some s = some s' := h
    obtain rfl := Option.some_injective _ h
    exact ⟨rfl, rfl, rfl, rfl, rfl, rfl, fun a => a, fun a => a,
      fun a => a, fun a => a.2, fun a => a⟩
  | cons e es ih =>
    intro s s' h
    replace h : (match s.add_new e with
      | none => (none : Option SCBloomFilter)
      | some s1 => s1.applyOps es) = some s' := h
    cases ha : s.add_new e with
    | none =>
      rw [ha] at h
      cases h
    | some s1 =>
      rw [ha] at h
      obtain ⟨-, c1, c2, -, c4, c5, c6, c7, -, hdisj⟩ :=
        SCBloomFilter.add_new_cases ha
      obtain ⟨i1, i2, i3, i4, i5, i6, i7, i8, i9, i10, i11⟩ := ih s1 s' h
      have e1 : s'.hash = s.hash := i1.trans c1
      have e2 : s'.num_of_hash_functions = s.num_of_hash_functions :=
        i2.trans c2
      have e3 : s'.bf_size = s.bf_size := i3.trans c5
      have e4 : s'.max_n = s.max_n := i4.trans c4
      have e5 : s'.memory_size = s.memory_size := i5.trans c6
      have e6 : s'.cache.capacity = s.cache.capacity := by
        rw [i6, c7, LRUCache.put_capacity]
      refine ⟨e1, e2, e3, e4, e5, e6, ?_, ?_, ?_, ?_, ?_⟩
      · intro hn0
        refine i7 ?_
        rcases hdisj with ⟨hn, -, -⟩ | ⟨-, hn, -, -⟩ <;> omega
      · intro hnm
        have : s1.n ≤ s1.max_n := by
          rcases hdisj with ⟨hn, -, -⟩ | ⟨hne, hn, -, -⟩ <;>
            rw [hn, c4] <;> omega
        exact i8 this
      · rintro ⟨hb0, hbf⟩
        have hstep : (s1.n = 0 → s1.bound = 0) ∧
            (0 < s1.n → s1.bound = boundFormula s1.bf_size s1.max_n) := by
          rcases hdisj with ⟨hn, -, hbd⟩ | ⟨-, hn, hbd, -, -⟩
          · rw [hn, hbd, c5, c4]
            exact ⟨hb0, hbf⟩
          · rw [hn, hbd, c5, c4]
            unfold updateBoundVal
            constructor
            · intro hz
              rw [if_pos hz]
            · intro hz
              rw [if_neg (by omega)]
        have := i9 hstep
        rw [c5, c4] at this
        exact this
      · rintro ⟨hn0, hz0⟩
        have hstep : 0 ≤ s1.n ∧
            (s1.n = 0 → ∀ j, s1.bloom_filter.getD j 0 = 0) := by
          rcases hdisj with ⟨hn, hbl, -⟩ | ⟨-, hn, -, -, -, -⟩
          · rw [hn, hbl]
            exact ⟨hn0, hz0⟩
          · rw [hn]
            exact ⟨by omega, fun hcontra => absurd hcontra (by omega)⟩
        exact i10 hstep
      · intro hlen
        refine (i11 ?_)
        rw [c7, LRUCache.put_capacity]
        exact s.cache.put_size_le e hlen

/-! ## Claim C6: admission cap and frame -/

/-- At capacity (`n = max_n`), `add_new` only refreshes the element set
and the cache: whichever branch the paradox check takes, the Bloom
counters, `n` and `bound` are untouched. -/
lemma SCBloomFilter.add_new_at_cap (s : SCBloomFilter) (e : String)
    (hms : s.memory_size ≠ 0) (hcap : s.n = s.max_n) :
    s.add_new e = some { s with elements := insert e s.elements,
                                cache := s.cache.put e } := by
  set s1 : SCBloomFilter :=
    { s with elements := insert e s.elements, cache := s.cache.put e }
    with hs1
  show SCBloomFilter.addNewAux s1 e = some s1
  rw [SCBloomFilter.addNewAux_def]
  rw [if_neg (show ¬ s1.memory_size = 0 from hms)]
  by_cases h2 : ((s1.apriori_prob : ℚ) : ℝ) < s1.bound
  · rw [if_pos h2]
  · rw [if_neg h2, if_pos (show s1.max_n = s1.n from hcap.symm)]

/-- C6: on every state reachable from a validly constructed filter
(`max_n ≥ 0`, `memory_size ≠ 0`), the admitted count `n` never exceeds
`max_n`, and once `n = max_n` every further `add_new` leaves the Bloom
counters, `n` and `bound` unchanged — only the element set and the
oracle cache move. -/
theorem c6_admission_cap (hash : String → ℕ → ℤ)
    (k cs bfs mn : ℤ) (ms : ℚ) (hmn : 0 ≤ mn) (hms : ms ≠ 0)
    (ops : List String) (s : SCBloomFilter)
    (h : (SCBloomFilter.init hash k cs bfs mn ms).applyOps ops = some s) :
    s.n ≤ s.max_n ∧
    (∀ e, s.n = s.max_n →
      s.add_new e = some { s with elements := insert e s.elements,
                                  cache := s.cache.put e }) := by
  obtain ⟨-, -, -, -, hmem, -, -, hnm, -, -, -⟩ := scbf_run ops _ s h
  constructor
  · exact hnm hmn
  · intro e hcap
    refine SCBloomFilter.add_new_at_cap s e ?_ hcap
    rw [hmem]
    exact hms

/-- Witness for C6: a filter constructed with `max_n = 0` is already at
capacity, and `add_new` is a pure oracle/bookkeeping refresh on it. -/
theorem c6_admission_cap_witness :
    (SCBloomFilter.init demoHash 1 1 2 0 1).n ≤
      (SCBloomFilter.init demoHash 1 1 2 0 1).max_n ∧
    (SCBloomFilter.init demoHash 1 1 2 0 1).add_new "a" =
      some { SCBloomFilter.init demoHash 1 1 2 0 1 with
             elements := insert "a"
               (SCBloomFilter.init demoHash 1 1 2 0 1).elements,
             cache := (SCBloomFilter.init demoHash 1 1 2 0 1).cache.put "a" } := by
  have h := c6_admission_cap demoHash 1 1 2 0 1 (by decide) one_ne_zero [] _ rfl
  exact ⟨h.1, h.2 "a" rfl⟩

/-! ## Claim C1: the two-phase admission bound -/

/-- C1 (amended): on every state reachable from a freshly constructed
filter, `bound = 0` while `n = 0`, and as soon as `n > 0` it equals the
fixed value `1 / (1 + ALPHA * 2 ** (log(2) * bf_size / max_n))` — with
the natural logarithm `log(2) = ln 2`, not `log2(e)` — which depends
only on `bf_size` and `max_n` and never changes on later `add_new`
calls. -/
theorem c1_bound_two_phase (hash : String → ℕ → ℤ)
    (k cs bfs mn : ℤ) (ms : ℚ) (ops : List String) (s : SCBloomFilter)
    (h : (SCBloomFilter.init hash k cs bfs mn ms).applyOps ops = some s) :
    (s.n = 0 → s.bound = 0) ∧
    (0 < s.n → s.bound = boundFormula bfs mn) := by
  obtain ⟨-, -, -, -, -, -, -, -, hbd, -, -⟩ := scbf_run ops _ s h
  exact hbd ⟨fun _ => rfl,
    fun hz => absurd (show (0:ℤ) < 0 from hz) (lt_irrefl 0)⟩

/-- Witness for C1's amended theorem at the empty run. -/
theorem c1_bound_two_phase_witness :
    ((SCBloomFilter.init demoHash 1 1 1 1 1).n = 0 →
      (SCBloomFilter.init demoHash 1 1 1 1 1).bound = 0) ∧
    (0 < (SCBloomFilter.init demoHash 1 1 1 1 1).n →
      (SCBloomFilter.init demoHash 1 1 1 1 1).bound = boundFormula 1 1) :=
  c1_bound_two_phase demoHash 1 1 1 1 1 [] _ rfl

/-- C1 counterexample: with `bf_size = max_n = 1`, after one admission
the stored bound is `1 / (1 + ALPHA * 2 ** (log(2) * 1))` with the
NATURAL logarithm `log(2) = ln 2 ≈ 0.693` (Python's
`math.log(2, math.e)`), which differs from the claimed
`1 / (1 + ALPHA * 2 ** (log2(e) * 1))` with `log2(e) = 1/ln 2 ≈ 1.443`. -/
theorem c1_counterexample :
    (SCBloomFilter.init demoHash 1 1 1 1 1).applyOps ["a"] =
      some { hash := demoHash, num_of_hash_functions := 1, cache_size := 1,
             cache := { cache := ["a"], capacity := 1 }, n := 1, max_n := 1,
             bound := boundFormula 1 1, bf_size := 1, bloom_filter := [1],
             memory_size := 1, elements := insert "a" ∅ } ∧
    boundFormula 1 1 ≠
      1 / (1 + (ALPHA : ℝ) *
        (2 : ℝ) ^ (Real.logb 2 (Real.exp 1) * (((1:ℤ) : ℝ) / ((1:ℤ) : ℝ)))) := by
  constructor
  · have hstep : (SCBloomFilter.init demoHash 1 1 1 1 1).add_new "a" =
        some { hash := demoHash, num_of_hash_functions := 1, cache_size := 1,
               cache := { cache := ["a"], capacity := 1 }, n := 1, max_n := 1,
               bound := boundFormula 1 1, bf_size := 1, bloom_filter := [1],
               memory_size := 1, elements := insert "a" ∅ } := by
      set s1 : SCBloomFilter :=
        { hash := demoHash, num_of_hash_functions := 1, cache_size := 1,
          cache := { cache := ["a"], capacity := 1 }, n := 0, max_n := 1,
          bound := 0, bf_size := 1, bloom_filter := [0],
          memory_size := 1, elements := insert "a" ∅ } with hs1
      show SCBloomFilter.addNewAux s1 "a" = _
      rw [SCBloomFilter.addNewAux_def]
      rw [if_neg (show ¬ s1.memory_size = 0 from one_ne_zero)]
      rw [if_neg (show ¬ ((s1.apriori_prob : ℚ) : ℝ) < s1.bound by
        show ¬ ((((1:ℕ):ℚ) / (1:ℚ) : ℚ) : ℝ) < (0:ℝ)
        norm_num)]
      rw [if_neg (show ¬ s1.max_n = s1.n by
        show ¬ (1:ℤ) = 0
        norm_num)]
      rfl
    show (match (SCBloomFilter.init demoHash 1 1 1 1 1).add_new "a" with
      | none => (none : Option SCBloomFilter)
      | some s1 => s1.applyOps []) = _
    rw [hstep]
    rfl
  · have h0 : (0:ℝ) < Real.log 2 := by
      have := Real.log_two_gt_d9
      linarith
    have h1 : Real.log 2 < 1 := by
      have := Real.log_two_lt_d9
      linarith
    have hlog : Real.logb 2 (Real.exp 1) = 1 / Real.log 2 := by
      rw [Real.logb, Real.log_exp]
    have hlt : Real.log 2 < 1 / Real.log 2 := by
      have h2 : 1 < 1 / Real.log 2 := by
        rw [lt_div_iff₀ h0, one_mul]
        exact h1
      linarith
    have hexp : (2:ℝ) ^ (Real.log 2 * (((1:ℤ):ℝ) / ((1:ℤ):ℝ))) <
        (2:ℝ) ^ ((1 / Real.log 2) * (((1:ℤ):ℝ) / ((1:ℤ):ℝ))) := by
      rw [Real.rpow_lt_rpow_left_iff (by norm_num : (1:ℝ) < 2)]
      have hone : (((1:ℤ):ℝ) / ((1:ℤ):ℝ)) = 1 := by norm_num
      rw [hone, mul_one, mul_one]
      exact hlt
    have hpos : (0:ℝ) < 1 + (ALPHA : ℝ) *
        (2:ℝ) ^ (Real.log 2 * (((1:ℤ):ℝ) / ((1:ℤ):ℝ))) := by
      have := Real.rpow_pos_of_pos (show (0:ℝ) < 2 by norm_num)
        (Real.log 2 * (((1:ℤ):ℝ) / ((1:ℤ):ℝ)))
      have hA : (0:ℝ) < (ALPHA : ℝ) := by
        show (0:ℝ) < ((100:ℚ):ℝ)
        norm_num
      nlinarith
    have hdenom : 1 + (ALPHA : ℝ) *
        (2:ℝ) ^ (Real.log 2 * (((1:ℤ):ℝ) / ((1:ℤ):ℝ))) <
        1 + (ALPHA : ℝ) *
        (2:ℝ) ^ ((1 / Real.log 2) * (((1:ℤ):ℝ) / ((1:ℤ):ℝ))) := by
      have hA : (0:ℝ) < (ALPHA : ℝ) := by
        show (0:ℝ) < ((100:ℚ):ℝ)
        norm_num
      nlinarith
    have hfrac : 1 / (1 + (ALPHA : ℝ) *
        (2:ℝ) ^ ((1 / Real.log 2) * (((1:ℤ):ℝ) / ((1:ℤ):ℝ)))) <
        1 / (1 + (ALPHA : ℝ) *
        (2:ℝ) ^ (Real.log 2 * (((1:ℤ):ℝ) / ((1:ℤ):ℝ)))) :=
      one_div_lt_one_div_of_lt hpos hdenom
    unfold boundFormula
    rw [hlog]
    exact ne_of_gt hfrac

/-! ## Claim C7: guarded posterior arithmetic -/

/-- C7 (amended): on every state reachable from a validly constructed
filter whose `memory_size` is at least the oracle capacity (so the prior
estimate `p` never exceeds 1), `should_exists` never divides by zero:
it always returns an answer, and whenever the Bloom product `bf_ans` is
nonzero the posterior's denominator is nonzero; moreover the quantity
compared against the threshold equals 0 when `p = 0` and 1 when `p = 1`
(with `bf_ans > 0`). -/
theorem c7_posterior_guarded (hash : String → ℕ → ℤ)
    (k cs bfs mn : ℤ) (ms : ℚ) (x : String)
    (hk : 0 < k) (hbfs : 0 < bfs) (hcs : 0 ≤ cs) (hms : 0 < ms)
    (hcm : (cs : ℚ) ≤ ms)
    (ops : List String) (s : SCBloomFilter)
    (h : (SCBloomFilter.init hash k cs bfs mn ms).applyOps ops = some s) :
    (s.should_exists x).isSome = true ∧
    (∀ hv, getHashValues s.hash s.num_of_hash_functions x s.bf_size
        = some hv →
      checkBFAux s.bloom_filter hv 1 ≠ 0 →
      (s.denominator (checkBFAux s.bloom_filter hv 1) ≠ 0 ∧
       (s.apriori_prob = 0 →
         s.nominator (checkBFAux s.bloom_filter hv 1) /
           s.denominator (checkBFAux s.bloom_filter hv 1) = 0) ∧
       (s.apriori_prob = 1 →
         s.nominator (checkBFAux s.bloom_filter hv 1) /
           s.denominator (checkBFAux s.bloom_filter hv 1) = 1))) := by
  obtain ⟨hh, hkf, hbff, -, hmem, hcapf, hn0, -, -, hz, hlen⟩ :=
    scbf_run ops _ s h
  have Hh : s.hash = hash := hh
  have Hk : s.num_of_hash_functions = k := hkf
  have Hbf : s.bf_size = bfs := hbff
  have Hms : s.memory_size = ms := hmem
  have Hcap : s.cache.capacity = cs := hcapf
  have Hk1 : (1:ℤ) ≤ k := hk
  have Hn0 : (0:ℤ) ≤ s.n := hn0 (le_refl 0)
  have hlen' : (s.cache.cache.length : ℤ) ≤ max s.cache.capacity 0 := by
    refine hlen ?_
    show ((([] : List String).length : ℤ)) ≤ max cs 0
    simp
  -- the prior estimate lies in [0, 1]
  have hp0 : 0 ≤ s.apriori_prob := by
    unfold SCBloomFilter.apriori_prob LRUCache.size
    rw [Hms]
    positivity
  have hp1 : s.apriori_prob ≤ 1 := by
    unfold SCBloomFilter.apriori_prob LRUCache.size
    rw [Hms, div_le_one hms]
    have h1 : (s.cache.cache.length : ℤ) ≤ cs := by
      rw [Hcap] at hlen'
      omega
    have h2 : ((s.cache.cache.length : ℕ) : ℚ) ≤ (cs : ℚ) := by
      exact_mod_cast h1
    exact h2.trans hcm
  -- `n = 0` keeps all counters at zero, so a nonzero product forces n ≥ 1
  have hzero : s.n = 0 → ∀ j, s.bloom_filter.getD j 0 = 0 := by
    refine hz ⟨le_refl 0, fun _ j => ?_⟩
    show (List.replicate bfs.toNat (0:ℕ)).getD j 0 = 0
    rw [getD_replicate]
    split_ifs <;> rfl
  have hnpos : ∀ hv, getHashValues s.hash s.num_of_hash_functions x
      s.bf_size = some hv → checkBFAux s.bloom_filter hv 1 ≠ 0 →
      (1:ℤ) ≤ s.n := by
    intro hv hhv hba
    by_contra hlt
    have hn : s.n = 0 := by omega
    have hallz := hzero hn
    rw [Hh, Hk, Hbf, getHashValues_eq_some hash k x (ne_of_gt hbfs)] at hhv
    obtain rfl := Option.some_injective _ hhv.symm
    have hvlen : ((List.range k.toNat).map
        (fun i => pymod (hash x i) bfs)).length = k.toNat := by
      rw [List.length_map, List.length_range]
    have hvne : (List.range k.toNat).map
        (fun i => pymod (hash x i) bfs) ≠ [] := by
      intro hnil
      rw [hnil] at hvlen
      simp at hvlen
      omega
    obtain ⟨c, cs0, hcons⟩ := List.exists_cons_of_ne_nil hvne
    rw [hcons, checkBFAux, if_pos (hallz c.toNat)] at hba
    exact hba rfl
  -- core arithmetic facts about the posterior
  have hmain : ∀ hv, getHashValues s.hash s.num_of_hash_functions x
      s.bf_size = some hv → checkBFAux s.bloom_filter hv 1 ≠ 0 →
      (s.denominator (checkBFAux s.bloom_filter hv 1) ≠ 0 ∧
       (s.apriori_prob = 0 → s.nominator (checkBFAux s.bloom_filter hv 1) /
         s.denominator (checkBFAux s.bloom_filter hv 1) = 0) ∧
       (s.apriori_prob = 1 → s.nominator (checkBFAux s.bloom_filter hv 1) /
         s.denominator (checkBFAux s.bloom_filter hv 1) = 1)) := by
    intro hv hhv hba
    have hn1 : (1:ℤ) ≤ s.n := hnpos hv hhv hba
    have hba1 : 1 ≤ checkBFAux s.bloom_filter hv 1 :=
      Nat.one_le_iff_ne_zero.mpr hba
    set a : ℕ := checkBFAux s.bloom_filter hv 1 with hadef
    have hbfq : (0:ℚ) < (s.bf_size : ℚ) ^ s.num_of_hash_functions := by
      refine zpow_pos ?_ _
      rw [Hbf]
      exact_mod_cast hbfs
    have haq : (0:ℚ) < (a : ℚ) := by exact_mod_cast hba1
    have hqq : (0:ℚ) < ((s.n * s.num_of_hash_functions : ℤ) : ℚ)
        ^ s.num_of_hash_functions := by
      refine zpow_pos ?_ _
      have h1 : (1:ℤ) ≤ s.n * s.num_of_hash_functions := by
        rw [Hk]
        nlinarith
      exact_mod_cast lt_of_lt_of_le zero_lt_one h1
    refine ⟨?_, ?_, ?_⟩
    · rcases eq_or_lt_of_le hp0 with hpz | hppos
      · unfold SCBloomFilter.denominator SCBloomFilter.nominator
        rw [← hpz, mul_zero, sub_zero, mul_one, zero_add]
        exact ne_of_gt hqq
      · have hnompos : 0 < s.nominator a := by
          unfold SCBloomFilter.nominator
          positivity
        have hrest : 0 ≤ ((s.n * s.num_of_hash_functions : ℤ) : ℚ)
            ^ s.num_of_hash_functions * (1 - s.apriori_prob) := by
          have h2 : 0 ≤ 1 - s.apriori_prob := by linarith
          positivity
        unfold SCBloomFilter.denominator
        intro hcontra
        nlinarith
    · intro hpz
      have hzeron : s.nominator a = 0 := by
        unfold SCBloomFilter.nominator
        rw [hpz, mul_zero]
      rw [hzeron, zero_div]
    · intro hpone
      have hdeq : s.denominator a = s.nominator a := by
        unfold SCBloomFilter.denominator
        rw [hpone, sub_self, mul_zero, add_zero]
      have hnompos : 0 < s.nominator a := by
        unfold SCBloomFilter.nominator
        rw [hpone, mul_one]
        positivity
      rw [hdeq, div_self (ne_of_gt hnompos)]
  refine ⟨?_, hmain⟩
  -- should_exists returns an answer
  unfold SCBloomFilter.should_exists
  rw [Hh, Hk, Hbf, getHashValues_eq_some hash k x (ne_of_gt hbfs)]
  set hv : List ℤ := (List.range k.toNat).map (fun i => pymod (hash x i) bfs)
    with hhv
  have hhvs : getHashValues s.hash s.num_of_hash_functions x s.bf_size
      = some hv := by
    rw [Hh, Hk, Hbf, getHashValues_eq_some hash k x (ne_of_gt hbfs)]
  by_cases hba : checkBFAux s.bloom_filter hv 1 = 0
  · show ((if checkBFAux s.bloom_filter hv 1 = 0 then (some false : Option Bool)
      else if s.memory_size = 0 then none
      else if s.denominator (checkBFAux s.bloom_filter hv 1) = 0 then none
      else some (decide (1 / (1 + ALPHA) ≤
        s.nominator (checkBFAux s.bloom_filter hv 1) /
        s.denominator (checkBFAux s.bloom_filter hv 1)))).isSome) = true
    rw [if_pos hba]
    rfl
  · show ((if checkBFAux s.bloom_filter hv 1 = 0 then (some false : Option Bool)
      else if s.memory_size = 0 then none
      else if s.denominator (checkBFAux s.bloom_filter hv 1) = 0 then none
      else some (decide (1 / (1 + ALPHA) ≤
        s.nominator (checkBFAux s.bloom_filter hv 1) /
        s.denominator (checkBFAux s.bloom_filter hv 1)))).isSome) = true
    obtain ⟨hden, -, -⟩ := hmain hv hhvs hba
    rw [if_neg hba, if_neg (by rw [Hms]; exact ne_of_gt hms), if_neg hden]
    rfl

/-- Witness for C7's amended theorem at a fresh filter. -/
theorem c7_posterior_guarded_witness :
    (((SCBloomFilter.init demoHash 1 1 2 3 1).should_exists "a").isSome)
      = true :=
  (c7_posterior_guarded demoHash 1 1 2 3 1 "a" (by decide) (by decide)
    (by decide) one_pos (by norm_num) [] _ rfl).1

/-- The stored admission bound is always below 1 (the exponential term
is positive). -/
lemma boundFormula_lt_one (a b : ℤ) : boundFormula a b < 1 := by
  unfold boundFormula
  have hpos := Real.rpow_pos_of_pos (show (0:ℝ) < 2 by norm_num)
    (Real.log 2 * ((a:ℝ) / (b:ℝ)))
  have hA : (0:ℝ) < (ALPHA : ℝ) := by
    show (0:ℝ) < ((100:ℚ) : ℝ)
    norm_num
  rw [div_lt_one (by nlinarith)]
  nlinarith

/-- C7 counterexample: a validly constructed filter (`k = 1`,
`cache_size = 3`, `bf_size = 2`, `max_n = 3`, `memory_size = 1`)
reaches, after the three admissions `"a", "bb", "cc"`, a state where
querying `"a"` evaluates the posterior with prior `p = 3 > 1` and hits
the denominator `2·1·3 + 3·(1 − 3) = 0` (all steps exact in Python
floats): `should_exists` raises `ZeroDivisionError` (modelled as
`none`), so "never raises an arithmetic error" is false. -/
theorem c7_counterexample :
    (SCBloomFilter.init demoHash 1 3 2 3 1).applyOps ["a", "bb", "cc"]
      = some c7s3 ∧
    c7s3.should_exists "a" = none := by
  have hbf1 : boundFormula 2 3 < 1 := boundFormula_lt_one 2 3
  have hms : ¬ (1 : ℚ) = 0 := one_ne_zero
  constructor
  · -- step 1: "a" is admitted (cell 1 of the counter array)
    have hstep1 : (SCBloomFilter.init demoHash 1 3 2 3 1).add_new "a" =
        some c7s1 := by
      set s1 : SCBloomFilter :=
        { hash := demoHash, num_of_hash_functions := 1, cache_size := 3,
          cache := { cache := ["a"], capacity := 3 }, n := 0, max_n := 3,
          bound := 0, bf_size := 2, bloom_filter := [0, 0],
          memory_size := 1, elements := insert "a" ∅ } with hs1
      show SCBloomFilter.addNewAux s1 "a" = some c7s1
      rw [SCBloomFilter.addNewAux_def]
      rw [if_neg (show ¬ s1.memory_size = 0 from hms)]
      rw [if_neg (show ¬ ((s1.apriori_prob : ℚ) : ℝ) < s1.bound by
        show ¬ ((((1:ℕ):ℚ) / (1 : ℚ) : ℚ) : ℝ) < (0:ℝ)
        norm_num)]
      rw [if_neg (show ¬ s1.max_n = s1.n by
        show ¬ (3:ℤ) = 0
        norm_num)]
      rfl
    -- step 2: "bb" is admitted (cell 0)
    have hstep2 : c7s1.add_new "bb" = some c7s2 := by
      set s2 : SCBloomFilter :=
        { hash := demoHash, num_of_hash_functions := 1, cache_size := 3,
          cache := { cache := ["a", "bb"], capacity := 3 }, n := 1,
          max_n := 3, bound := boundFormula 2 3, bf_size := 2,
          bloom_filter := [0, 1], memory_size := 1,
          elements := insert "bb" (insert "a" ∅) } with hs2
      show SCBloomFilter.addNewAux s2 "bb" = some c7s2
      rw [SCBloomFilter.addNewAux_def]
      rw [if_neg (show ¬ s2.memory_size = 0 from hms)]
      rw [if_neg (show ¬ ((s2.apriori_prob : ℚ) : ℝ) < s2.bound by
        show ¬ ((((2:ℕ):ℚ) / (1 : ℚ) : ℚ) : ℝ) < boundFormula 2 3
        have hval : ((((2:ℕ):ℚ) / (1 : ℚ) : ℚ) : ℝ) = 2 := by norm_num
        rw [hval]
        linarith)]
      rw [if_neg (show ¬ s2.max_n = s2.n by
        show ¬ (3:ℤ) = 1
        norm_num)]
      rfl
    -- step 3: "cc" is admitted (cell 0 again)
    have hstep3 : c7s2.add_new "cc" = some c7s3 := by
      set s3 : SCBloomFilter :=
        { hash := demoHash, num_of_hash_functions := 1, cache_size := 3,
          cache := { cache := ["a", "bb", "cc"], capacity := 3 }, n := 2,
          max_n := 3, bound := boundFormula 2 3, bf_size := 2,
          bloom_filter := [1, 1], memory_size := 1,
          elements := insert "cc" (insert "bb" (insert "a" ∅)) } with hs3
      show SCBloomFilter.addNewAux s3 "cc" = some c7s3
      rw [SCBloomFilter.addNewAux_def]
      rw [if_neg (show ¬ s3.memory_size = 0 from hms)]
      rw [if_neg (show ¬ ((s3.apriori_prob : ℚ) : ℝ) < s3.bound by
        show ¬ ((((3:ℕ):ℚ) / (1 : ℚ) : ℚ) : ℝ) < boundFormula 2 3
        have hval : ((((3:ℕ):ℚ) / (1 : ℚ) : ℚ) : ℝ) = 3 := by norm_num
        rw [hval]
        linarith)]
      rw [if_neg (show ¬ s3.max_n = s3.n by
        show ¬ (3:ℤ) = 2
        norm_num)]
      rfl
    show (match (SCBloomFilter.init demoHash 1 3 2 3 1).add_new "a" with
      | none => (none : Option SCBloomFilter)
      | some t => t.applyOps ["bb", "cc"]) = some c7s3
    rw [hstep1]
    show (match c7s1.add_new "bb" with
      | none => (none : Option SCBloomFilter)
      | some t => t.applyOps ["cc"]) = some c7s3
    rw [hstep2]
    show (match c7s2.add_new "cc" with
      | none => (none : Option SCBloomFilter)
      | some t => t.applyOps []) = some c7s3
    rw [hstep3]
    rfl
  · -- the final query: bf_ans = 1 but the denominator is exactly 0
    show (if checkBFAux c7s3.bloom_filter [1] 1 = 0
        then (some false : Option Bool)
      else if c7s3.memory_size = 0 then none
      else if c7s3.denominator (checkBFAux c7s3.bloom_filter [1] 1) = 0
        then none
      else some (decide (1 / (1 + ALPHA) ≤
        c7s3.nominator (checkBFAux c7s3.bloom_filter [1] 1) /
        c7s3.denominator (checkBFAux c7s3.bloom_filter [1] 1)))) = none
    rw [if_neg (show ¬ checkBFAux c7s3.bloom_filter [1] 1 = 0 by
      show ¬ checkBFAux [2, 1] [1] 1 = 0
      decide)]
    rw [if_neg (show ¬ c7s3.memory_size = 0 from hms)]
    rw [if_pos (show c7s3.denominator (checkBFAux c7s3.bloom_filter [1] 1)
        = 0 by
      show c7s3.denominator 1 = 0
      unfold c7s3 SCBloomFilter.denominator SCBloomFilter.nominator
        SCBloomFilter.apriori_prob LRUCache.size
      norm_num)]
